import Mathlib

/-!
Verification development for the ChronoTree merge engine
(`src/chronoTree.ts` and its in-memory `TestStorage` backend).

The TypeScript source is shallowly embedded: mutable objects become
explicit state passing, `typescript-collections` dictionaries and sets
become insertion-ordered association lists and duplicate-free lists,
and thrown exceptions become an `Option CtError` component carried next
to the (possibly already mutated) state, matching the JS semantics in
which field mutations performed before a `throw` survive the throw.

Hashes are opaque labels produced by the store.  `TestStorage` digests
the node it is given (after clearing the node's own `hash` field to the
empty string); we model the digest as an injective constructor
`Hash.digest` applied to the digested fields, which captures exactly the
collision-freeness the code relies on.  The lexicographic string order
used by JavaScript `Array.sort` is modelled by the total order `hcmp`
on hashes; the engine only ever needs it to be one fixed total order.
-/

/-- Flavor of a node, from the `NodeType` enum in chronoTree.ts. -/
inductive NodeType : Type where
  | Content : NodeType
  | Aggregate : NodeType
deriving DecidableEq, Repr

/-- An opaque storage label.  `notSet` models the string sentinel
`'HASH_NOT_SET'`, `cleared` models the empty string `''` that
`TestStorage.save` writes into the node before digesting, and
`digest` models the SHA-1 digest of a node's serialized fields
(hash field, type, parent, predecessor list, payload). -/
inductive Hash : Type where
  | notSet : Hash
  | cleared : Hash
  | digest (hash : Hash) (ty : NodeType) (parent : Hash)
      (preds : List Hash) (payload : Nat) : Hash

mutual
/-- Decidable equality on hashes (written by hand because automatic
deriving does not handle the nested list of predecessor hashes). -/
def Hash.decEq : (a b : Hash) → Decidable (a = b)
  | Hash.notSet, Hash.notSet => Decidable.isTrue rfl
  | Hash.notSet, Hash.cleared => Decidable.isFalse fun he => by cases he
  | Hash.notSet, Hash.digest _ _ _ _ _ => Decidable.isFalse fun he => by cases he
  | Hash.cleared, Hash.notSet => Decidable.isFalse fun he => by cases he
  | Hash.cleared, Hash.cleared => Decidable.isTrue rfl
  | Hash.cleared, Hash.digest _ _ _ _ _ => Decidable.isFalse fun he => by cases he
  | Hash.digest _ _ _ _ _, Hash.notSet => Decidable.isFalse fun he => by cases he
  | Hash.digest _ _ _ _ _, Hash.cleared => Decidable.isFalse fun he => by cases he
  | Hash.digest a1 b1 c1 d1 e1, Hash.digest a2 b2 c2 d2 e2 =>
    match Hash.decEq a1 a2 with
    | Decidable.isFalse h => Decidable.isFalse fun he => by cases he; exact h rfl
    | Decidable.isTrue h1 =>
      if h2 : b1 = b2 then
        match Hash.decEq c1 c2 with
        | Decidable.isFalse h => Decidable.isFalse fun he => by cases he; exact h rfl
        | Decidable.isTrue h3 =>
          match Hash.decEqList d1 d2 with
          | Decidable.isFalse h => Decidable.isFalse fun he => by cases he; exact h rfl
          | Decidable.isTrue h4 =>
            if h5 : e1 = e2 then Decidable.isTrue (by rw [h1, h2, h3, h4, h5])
            else Decidable.isFalse fun he => by cases he; exact h5 rfl
      else Decidable.isFalse fun he => by cases he; exact h2 rfl

/-- Decidable equality on lists of hashes. -/
def Hash.decEqList : (l1 l2 : List Hash) → Decidable (l1 = l2)
  | [], [] => Decidable.isTrue rfl
  | [], _ :: _ => Decidable.isFalse fun he => by cases he
  | _ :: _, [] => Decidable.isFalse fun he => by cases he
  | x :: xs, y :: ys =>
    match Hash.decEq x y with
    | Decidable.isFalse h => Decidable.isFalse fun he => by cases he; exact h rfl
    | Decidable.isTrue h1 =>
      match Hash.decEqList xs ys with
      | Decidable.isFalse h => Decidable.isFalse fun he => by cases he; exact h rfl
      | Decidable.isTrue h2 => Decidable.isTrue (by rw [h1, h2])
end

instance : DecidableEq Hash := Hash.decEq

mutual
/-- Diagnostic rendering of a hash. -/
def Hash.render : Hash → String
  | Hash.notSet => "N"
  | Hash.cleared => "E"
  | Hash.digest a b c d e =>
    "D(" ++ a.render ++ "," ++ (match b with
      | NodeType.Content => "C"
      | NodeType.Aggregate => "A") ++ "," ++ c.render ++ ",["
      ++ Hash.renderList d ++ "]," ++ toString e ++ ")"

/-- Diagnostic rendering of a hash list. -/
def Hash.renderList : List Hash → String
  | [] => ""
  | x :: xs => x.render ++ " " ++ Hash.renderList xs
end

instance : Repr Hash := ⟨fun h _ => Std.Format.text h.render⟩

/-- The distinguished unset sentinel, `Node.HASH_NOT_SET` in the source. -/
def HASH_NOT_SET : Hash := Hash.notSet

/-- The base node record of chronoTree.ts, extended with the opaque
`content` payload that `TestNode` adds (aggregates use payload 0 and
are distinguished from content nodes by their `type` tag, exactly as
the serialized JS objects are distinguished by their fields). -/
structure Node where
  hash : Hash := Hash.notSet
  type : NodeType := NodeType.Content
  parent : Hash := Hash.notSet
  predecessors : List Hash := []
  content : Nat := 0
deriving DecidableEq, Repr

/-- Three-way comparison on Nat payloads. -/
def natCmp (a b : Nat) : Ordering :=
  if a < b then Ordering.lt else if b < a then Ordering.gt else Ordering.eq

/-- Three-way comparison on node types. -/
def ncmp : NodeType → NodeType → Ordering
  | NodeType.Content, NodeType.Content => Ordering.eq
  | NodeType.Content, NodeType.Aggregate => Ordering.lt
  | NodeType.Aggregate, NodeType.Content => Ordering.gt
  | NodeType.Aggregate, NodeType.Aggregate => Ordering.eq

mutual
/-- A fixed total order on hashes, standing in for the lexicographic
string order that JavaScript `Array.sort()` applies to hash strings. -/
def hcmp : Hash → Hash → Ordering
  | Hash.notSet, Hash.notSet => Ordering.eq
  | Hash.notSet, Hash.cleared => Ordering.lt
  | Hash.notSet, Hash.digest _ _ _ _ _ => Ordering.lt
  | Hash.cleared, Hash.notSet => Ordering.gt
  | Hash.cleared, Hash.cleared => Ordering.eq
  | Hash.cleared, Hash.digest _ _ _ _ _ => Ordering.lt
  | Hash.digest _ _ _ _ _, Hash.notSet => Ordering.gt
  | Hash.digest _ _ _ _ _, Hash.cleared => Ordering.gt
  | Hash.digest a1 b1 c1 d1 e1, Hash.digest a2 b2 c2 d2 e2 =>
    Ordering.then (hcmp a1 a2) (Ordering.then (ncmp b1 b2)
      (Ordering.then (hcmp c1 c2)
        (Ordering.then (hcmpList d1 d2) (natCmp e1 e2))))

/-- Lexicographic extension of `hcmp` to hash lists. -/
def hcmpList : List Hash → List Hash → Ordering
  | [], [] => Ordering.eq
  | [], _ :: _ => Ordering.lt
  | _ :: _, [] => Ordering.gt
  | x :: xs, y :: ys => Ordering.then (hcmp x y) (hcmpList xs ys)
end

/-- Boolean less-or-equal induced by `hcmp`. -/
def hleB (a b : Hash) : Bool := hcmp a b ≠ Ordering.gt

/-- Insert a hash into a list sorted by `hleB`. -/
def insertSorted (x : Hash) : List Hash → List Hash
  | [] => [x]
  | y :: ys => if hleB x y then x :: y :: ys else y :: insertSorted x ys

/-- Sort a hash list, modelling `array.sort()` on hash strings. -/
def sortHashes (l : List Hash) : List Hash := l.foldr insertSorted []

/-- Models `Dictionary.containsKey` on an insertion-ordered association list. -/
def dictContains (d : List (Hash × Node)) (k : Hash) : Bool :=
  d.any fun p => decide (p.1 = k)

/-- Models `Dictionary.getValue` (first matching key). -/
def dictGet (d : List (Hash × Node)) (k : Hash) : Option Node :=
  (d.find? fun p => decide (p.1 = k)).map Prod.snd

/-- Models `Dictionary.setValue`: replace in place when the key exists,
append otherwise. -/
def dictSet (d : List (Hash × Node)) (k : Hash) (v : Node) : List (Hash × Node) :=
  if dictContains d k then
    d.map fun p => if p.1 = k then (k, v) else p
  else d ++ [(k, v)]

/-- Models `Dictionary.remove`. -/
def dictRemove (d : List (Hash × Node)) (k : Hash) : List (Hash × Node) :=
  d.filter fun p => decide (p.1 ≠ k)

/-- Models `Set.add`: a no-op when the element is already present, otherwise
appended, preserving insertion order. -/
def setAdd (s : List Hash) (h : Hash) : List Hash :=
  if h ∈ s then s else s ++ [h]

/-- Models `Set.remove`. -/
def setRemove (s : List Hash) (h : Hash) : List Hash :=
  s.filter fun x => decide (x ≠ h)

/-- The in-memory backend of testStorage.ts: an append-only list of
saved nodes. -/
structure TestStorage where
  knownNodes : List Node := []
deriving DecidableEq, Repr

/-- The digest `computeHash` produces for a node: an injective function
of every field of the node as passed to it (testStorage.ts hashes the
whole object with `object-hash` sha1). -/
def computeHash (n : Node) : Hash :=
  Hash.digest n.hash n.type n.parent n.predecessors n.content

/-- Models `TestStorage.save`: the node's own hash field is overwritten with
the empty string (`node.hash = ''`) before the digest is computed; the
node is then pushed onto the append-only list.  Every caller in the
repository immediately assigns the returned digest back into the saved
(aliased) object's `hash` field, so the stored record carries the
digest as its hash. -/
def TestStorage.save (st : TestStorage) (node : Node) : Hash × TestStorage :=
  let h := computeHash { node with hash := Hash.cleared }
  (h, { knownNodes := st.knownNodes ++ [{ node with hash := h }] })

/-- Models `TestStorage.delete`, which only logs: deleting from storage does not make
a node unfindable. -/
def TestStorage.delete (st : TestStorage) (_h : Hash) : TestStorage := st

/-- Models `TestStorage.find`: first stored node whose hash field matches;
`none` models the thrown `Cannot find node hash` error. -/
def TestStorage.find (st : TestStorage) (h : Hash) : Option Node :=
  st.knownNodes.find? fun n => decide (n.hash = h)

/-- Well-formedness maintained by `TestStorage.save`: every stored node
carries the digest of itself with a cleared hash field as its hash. -/
def TestStorage.WF (st : TestStorage) : Prop :=
  ∀ n ∈ st.knownNodes, n.hash = computeHash { n with hash := Hash.cleared }

/-- Errors thrown by the engine or its storage: `storageNotFound` for
`Storage.find` misses, `unknownNode` for `getNode` on an unknown hash,
`undefinedValue` for a JS `getValue` returning `undefined` that is then
dereferenced, and `outOfFuel` as the embedding's marker for running the
merge work loop beyond the modelled iteration budget. -/
inductive CtError : Type where
  | storageNotFound (h : Hash) : CtError
  | unknownNode (h : Hash) : CtError
  | undefinedValue : CtError
  | outOfFuel : CtError
deriving DecidableEq, Repr

/-- The per-replica state of a ChronoTree: bitter end digest, the
known-nodes dictionary and the loose-ends set, both in insertion
order. -/
structure ChronoTree where
  bitterEnd : Hash
  knownNodes : List (Hash × Node) := []
  looseEnds : List Hash := []
deriving DecidableEq, Repr

/-- Models `ChronoTree.replaceBitterEnd` (chronoTree.ts lines 241-258): save
the new bitter-end node, adopt its digest, purge the previous bitter
end when it was an Aggregate, and when the new node is Content swap it
for the old bitter end inside the loose-end set.  Returns the updated
tree, storage and node, plus the error thrown by `getNode` when the old
bitter end is unknown (the save and the bitter-end reassignment have
already happened at that point, as in the JS original). -/
def ChronoTree.replaceBitterEnd (t : ChronoTree) (st : TestStorage) (nb : Node) :
    ChronoTree × TestStorage × Node × Option CtError :=
  let saved := st.save nb
  let nb1 := { nb with hash := saved.1 }
  let st1 := saved.2
  let oldBE := t.bitterEnd
  let t1 := { t with bitterEnd := nb1.hash }
  match dictGet t1.knownNodes oldBE with
  | none => (t1, st1, nb1, some (CtError.unknownNode oldBE))
  | some oldNode =>
    let t2 := if oldNode.type = NodeType.Aggregate then
        { t1 with knownNodes := dictRemove t1.knownNodes oldBE } else t1
    let st2 := if oldNode.type = NodeType.Aggregate then st1.delete oldBE else st1
    let t3 := if nb1.type = NodeType.Content then
        { t2 with looseEnds := setAdd (setRemove t2.looseEnds oldBE) nb1.hash } else t2
    (t3, st2, nb1, none)

/-- Models `ChronoTree.add` (chronoTree.ts lines 132-156): a no-op when the
node's hash is already known; otherwise the current bitter-end node is
consulted (Content: pushed onto the new node's predecessors unless it
is the new node's parent; Aggregate: its predecessor list replaces the
new node's), the bitter end is replaced by the new node, and the new
node is recorded among the known nodes. -/
def ChronoTree.add (t : ChronoTree) (st : TestStorage) (newNode : Node) :
    ChronoTree × TestStorage × Node × Option CtError :=
  if dictContains t.knownNodes newNode.hash then (t, st, newNode, none)
  else
    match dictGet t.knownNodes t.bitterEnd with
    | none => (t, st, newNode, some CtError.undefinedValue)
    | some be =>
      let n1 := if be.type = NodeType.Content ∧ be.hash ≠ newNode.parent then
          { newNode with predecessors := newNode.predecessors ++ [be.hash] }
        else newNode
      let n2 := if be.type = NodeType.Aggregate then
          { n1 with predecessors := be.predecessors } else n1
      let r := t.replaceBitterEnd st n2
      match r.2.2.2 with
      | some err => (r.1, r.2.1, r.2.2.1, some err)
      | none =>
        ({ r.1 with knownNodes := dictSet r.1.knownNodes r.2.2.1.hash r.2.2.1 },
          r.2.1, r.2.2.1, none)

/-- The merge work loop of `mergeImpl` (chronoTree.ts lines 188-215):
a FIFO queue of hashes is drained; each not-yet-known hash is fetched
from storage, recorded, tentatively marked as a loose end, and its
parent and predecessors are enqueued and removed from the loose-end
set.  Storage is only read.  The fuel argument bounds the number of
iterations modelled; the source loop terminates on every finite
storage, so ample fuel makes the two coincide. -/
def mergeLoop (st : TestStorage) : Nat → ChronoTree → List Hash → ChronoTree × Option CtError
  | _, t, [] => (t, none)
  | 0, t, _ :: _ => (t, some CtError.outOfFuel)
  | fuel + 1, t, h :: rest =>
    if dictContains t.knownNodes h then mergeLoop st fuel t rest
    else
      match st.find h with
      | none => (t, some (CtError.storageNotFound h))
      | some node =>
        let le1 := setAdd t.looseEnds h
        let le2 := if node.parent ≠ HASH_NOT_SET then setRemove le1 node.parent else le1
        let todo2 := if node.parent ≠ HASH_NOT_SET then rest ++ [node.parent] else rest
        mergeLoop st fuel
          { t with knownNodes := dictSet t.knownNodes h node,
                   looseEnds := node.predecessors.foldl setRemove le2 }
          (todo2 ++ node.predecessors)

/-- Models `ChronoTree.mergeImpl` (chronoTree.ts lines 179-239): fast exit for
already-known hashes, then the traversal loop, then either the loose
ends implied by the starting head (when run from the constructor,
`isInit = true`) or the synthesis of the new bitter end: the single
remaining loose end itself, or a fresh Aggregate over the sorted
loose-end set. -/
def ChronoTree.mergeImpl (fuel : Nat) (t : ChronoTree) (st : TestStorage)
    (other : Hash) (isInit : Bool) : ChronoTree × TestStorage × Option CtError :=
  if dictContains t.knownNodes other then (t, st, none)
  else
    let looped := mergeLoop st fuel t [other]
    match looped.2 with
    | some err => (looped.1, st, some err)
    | none =>
      let t1 := looped.1
      if isInit then
        match dictGet t1.knownNodes t1.bitterEnd with
        | none => (t1, st, some CtError.undefinedValue)
        | some be =>
          let t2 := if be.parent ≠ HASH_NOT_SET then
              { t1 with looseEnds := setAdd t1.looseEnds be.parent } else t1
          let t3 := { t2 with looseEnds := (sortHashes be.predecessors).foldl setAdd t2.looseEnds }
          (t3, st, none)
      else
        if t1.looseEnds.length = 1 then
          match st.find (t1.looseEnds.headD HASH_NOT_SET) with
          | none => (t1, st, some (CtError.storageNotFound (t1.looseEnds.headD HASH_NOT_SET)))
          | some nd =>
            let r := t1.replaceBitterEnd st nd
            match r.2.2.2 with
            | some err => (r.1, r.2.1, some err)
            | none =>
              ({ r.1 with knownNodes := dictSet r.1.knownNodes r.2.2.1.hash r.2.2.1 },
                r.2.1, none)
        else
          let agg : Node := { hash := Hash.notSet, type := NodeType.Aggregate,
                              parent := Hash.notSet,
                              predecessors := sortHashes t1.looseEnds, content := 0 }
          let r := t1.replaceBitterEnd st agg
          match r.2.2.2 with
          | some err => (r.1, r.2.1, some err)
          | none =>
            ({ r.1 with knownNodes := dictSet r.1.knownNodes r.2.2.1.hash r.2.2.1 },
              r.2.1, none)

/-- Models `ChronoTree.merge` (chronoTree.ts lines 161-164). -/
def ChronoTree.merge (fuel : Nat) (t : ChronoTree) (st : TestStorage) (other : Hash) :
    ChronoTree × TestStorage × Option CtError :=
  t.mergeImpl fuel st other false

/-- The `ChronoTree` constructor (chronoTree.ts lines 63-76): with a
head, attach to it; without one, synthesise, save and attach to an
empty Aggregate (`BitterEndNode`). -/
def ChronoTree.create (fuel : Nat) (st : TestStorage) (head : Option Hash) :
    ChronoTree × TestStorage × Option CtError :=
  match head with
  | some h =>
    let t0 : ChronoTree := { bitterEnd := h, knownNodes := [], looseEnds := [] }
    t0.mergeImpl fuel st h true
  | none =>
    let emptyTreeNode : Node := { hash := Hash.notSet, type := NodeType.Aggregate,
                                  parent := Hash.notSet, predecessors := [], content := 0 }
    let saved := st.save emptyTreeNode
    let t0 : ChronoTree := { bitterEnd := saved.1, knownNodes := [], looseEnds := [] }
    t0.mergeImpl fuel saved.2 saved.1 true

-- ===== shared base scenario: a root content node saved in fresh storage =====

/-- Empty storage. -/
def scStorage0 : TestStorage := { knownNodes := [] }

/-- The root content node of the test scenarios (payload 0). -/
def scRoot : Node := { content := 0 }

/-- Root saved: its digest and the storage holding it. -/
def scRootSaved : Hash × TestStorage := scStorage0.save scRoot

def scRootHash : Hash := scRootSaved.1
def scStRoot : TestStorage := scRootSaved.2

/-- Result bundle of the commutativity scenario. -/
structure CommResult where
  tA : ChronoTree
  tB : ChronoTree
  eA : Option CtError
  eB : Option CtError
deriving DecidableEq, Repr

/-- The commutativity scenario of chronoTreeTests.ts (`should be
commutative`), with the two divergent payloads left as parameters:
two replicas attach to a common saved root, each adds one fresh
Content node (parent = root), then each merges the other's bitter end
as captured before either merge ran. -/
def commScenario (c1 c2 : Nat) : CommResult :=
  let cA := ChronoTree.create 20 scStRoot (some scRootHash)
  let cB := ChronoTree.create 20 cA.2.1 (some scRootHash)
  let nA : Node := { parent := scRootHash, content := c1 }
  let nB : Node := { parent := scRootHash, content := c2 }
  let aA := ChronoTree.add cA.1 cB.2.1 nA
  let aB := ChronoTree.add cB.1 aA.2.1 nB
  let endA := aA.1.bitterEnd
  let endB := aB.1.bitterEnd
  let mA := ChronoTree.merge 20 aA.1 aB.2.1 endB
  let mB := ChronoTree.merge 20 aB.1 mA.2.1 endA
  { tA := mA.1, tB := mB.1, eA := mA.2.2, eB := mB.2.2 }

-- ===== split-merge scenario with concrete payloads 1 and 2 =====

/-- Replica A attached to the root. -/
def scTreeA0 : ChronoTree := (ChronoTree.create 20 scStRoot (some scRootHash)).1

/-- Node a (payload 1, child of the root). -/
def scNodeA : Node := { parent := scRootHash, content := 1 }

/-- Replica A after adding node a, with the storage it produced. -/
def scAddA : ChronoTree × TestStorage × Node × Option CtError :=
  scTreeA0.add scStRoot scNodeA

def scHashA : Hash := scAddA.2.2.1.hash

/-- Replica B attached to the root (sharing storage with A). -/
def scTreeB0 : ChronoTree := (ChronoTree.create 20 scAddA.2.1 (some scRootHash)).1

/-- Node b (payload 2, child of the root). -/
def scNodeB : Node := { parent := scRootHash, content := 2 }

/-- Replica B after adding node b. -/
def scAddB : ChronoTree × TestStorage × Node × Option CtError :=
  scTreeB0.add scAddA.2.1 scNodeB

def scHashB : Hash := scAddB.2.2.1.hash

/-- Replica A after merging b's hash: its bitter end is now an
Aggregate over the sorted pair of a's and b's hashes. -/
def scMergeA : ChronoTree × TestStorage × Option CtError :=
  ChronoTree.merge 20 scAddA.1 scAddB.2.1 scHashB

/-- Node p (payload 3) replying to node a while replica A's bitter end
is the two-predecessor Aggregate. -/
def scNodeP : Node := { parent := scHashA, content := 3 }

/-- Replica A after adding p on top of the Aggregate bitter end. -/
def scAddP : ChronoTree × TestStorage × Node × Option CtError :=
  scMergeA.1.add scMergeA.2.1 scNodeP

-- ===== C4 scenario: replica B merges replica A's aggregate bitter end =====
def scMergeB : ChronoTree × TestStorage × Option CtError :=
  ChronoTree.merge 20 scAddB.1 scMergeA.2.1 scMergeA.1.bitterEnd

-- ===== C8 scenario: merge hits a dangling parent hash =====
def scDangling : Hash := Hash.digest Hash.cleared NodeType.Content Hash.notSet [] 99

/-- A node whose parent hash was never saved. -/
def scNodeBad : Node := { parent := scDangling, content := 4 }

def scBadSaved : Hash × TestStorage := scStRoot.save scNodeBad

/-- A fresh replica attached to the root on the storage holding the
bad node. -/
def scTreeC0 : ChronoTree := (ChronoTree.create 20 scBadSaved.2 (some scRootHash)).1

/-- The failing merge: traversal fetches the bad node, then fails to
find its dangling parent. -/
def scMergeBad : ChronoTree × TestStorage × Option CtError :=
  ChronoTree.merge 20 scTreeC0 scBadSaved.2 scBadSaved.1

/-- A fresh replica attached to the root after a and b exist. -/
def scTreeD : ChronoTree := (ChronoTree.create 20 scAddA.2.1 (some scRootHash)).1

/-- That replica merging a's hash: a single loose end results, so the
bitter end becomes a's hash itself and no Aggregate is synthesised. -/
def scMergeD : ChronoTree × TestStorage × Option CtError :=
  ChronoTree.merge 20 scTreeD scAddA.2.1 scHashA

/-- The root node as stored (hash field holding its digest). -/
def rootN : Node := { scRoot with hash := scRootHash }

/-- Digest of a fresh Content child of the root with payload c. -/
def hashC (c : Nat) : Hash := Hash.digest Hash.cleared NodeType.Content scRootHash [] c

/-- A stored Content child of the root with payload c. -/
def nodeC (c : Nat) : Node :=
  { hash := hashC c, type := NodeType.Content, parent := scRootHash,
    predecessors := [], content := c }

/-- Digest of an Aggregate over the predecessor list l. -/
def aggHash (l : List Hash) : Hash :=
  Hash.digest Hash.cleared NodeType.Aggregate Hash.notSet l 0

/-- A stored Aggregate node over the predecessor list l. -/
def aggNode (l : List Hash) : Node :=
  { hash := aggHash l, type := NodeType.Aggregate, parent := Hash.notSet,
    predecessors := l, content := 0 }

/-- The replica state right after attaching to the saved root. -/
def T0 : ChronoTree :=
  { bitterEnd := scRootHash, knownNodes := [(scRootHash, rootN)],
    looseEnds := [scRootHash] }

/-- The Aggregate node that is replica A's bitter end after merging b. -/
def scAggA : Node := aggNode (sortHashes [scHashA, scHashB])

/-- An Aggregate-typed node handed directly to `add`, exercising the
aggregate-transience invariant on the added node itself. -/
def scNodeQ : Node :=
  { type := NodeType.Aggregate, parent := Hash.notSet, predecessors := [], content := 7 }

/-- Replica A (Aggregate bitter end) after adding the Aggregate-typed
node q. -/
def scAddQ : ChronoTree × TestStorage × Node × Option CtError :=
  scMergeA.1.add scMergeA.2.1 scNodeQ

-- ===== container lemmas =====

/-- In-place replacement puts `(k, v)` at the first occurrence of `k`. -/
theorem find_map_replace (k : Hash) (v : Node) (d : List (Hash × Node))
    (hc : d.any (fun p => decide (p.1 = k)) = true) :
    (d.map fun p => if p.1 = k then (k, v) else p).find?
      (fun p => decide (p.1 = k)) = some (k, v) := by
  induction d with
  | nil => simp at hc
  | cons p d ih =>
    by_cases hpk : p.1 = k
    · rw [List.map_cons, if_pos hpk, List.find?_cons_of_pos _ (by simp)]
    · rw [List.map_cons, if_neg hpk, List.find?_cons_of_neg _ (by simp [hpk])]
      exact ih (by simpa [List.any_cons, hpk] using hc)

/-- A dictionary without key `k` yields no match for `k`. -/
theorem find_none_of_not_contains (k : Hash) (d : List (Hash × Node))
    (hc : ¬ dictContains d k = true) :
    d.find? (fun p => decide (p.1 = k)) = none := by
  apply List.find?_eq_none.mpr
  intro x hx
  simp only [decide_eq_true_eq]
  intro he
  exact hc (by
    unfold dictContains
    simp only [List.any_eq_true]
    exact ⟨x, hx, by simp [he]⟩)

/-- Looking up the key just set returns the value just set. -/
theorem dictGet_dictSet_self (d : List (Hash × Node)) (k : Hash) (v : Node) :
    dictGet (dictSet d k v) k = some v := by
  unfold dictGet dictSet
  by_cases hc : dictContains d k = true
  · simp only [hc, if_true]
    rw [find_map_replace k v d (by simpa [dictContains] using hc)]
    rfl
  · simp only [hc, if_false, Bool.false_eq_true]
    rw [List.find?_append, find_none_of_not_contains k d hc]
    simp [List.find?]

/-- Setting one key leaves membership of any key intact. -/
theorem dictContains_dictSet_of (d : List (Hash × Node)) (k k' : Hash) (v : Node)
    (h : dictContains d k' = true) : dictContains (dictSet d k v) k' = true := by
  unfold dictContains at h ⊢
  unfold dictSet
  by_cases hc : dictContains d k = true
  · simp only [hc, if_true]
    simp only [List.any_eq_true] at h ⊢
    rcases h with ⟨p, hp, hk⟩
    simp only [decide_eq_true_eq] at hk
    by_cases hpk : p.1 = k
    · exact ⟨(k, v), List.mem_map.mpr ⟨p, hp, by rw [if_pos hpk]⟩, by simp [← hk, hpk]⟩
    · exact ⟨p, List.mem_map.mpr ⟨p, hp, by rw [if_neg hpk]⟩, by simp [hk]⟩
  · simp only [hc, if_false, Bool.false_eq_true]
    simp only [List.any_append, Bool.or_eq_true]
    exact Or.inl h

/-- The key just set is a member. -/
theorem dictContains_dictSet_self (d : List (Hash × Node)) (k : Hash) (v : Node) :
    dictContains (dictSet d k v) k = true := by
  unfold dictContains dictSet
  by_cases hc : dictContains d k = true
  · simp only [hc, if_true]
    unfold dictContains at hc
    simp only [List.any_eq_true] at hc ⊢
    rcases hc with ⟨p, hp, hk⟩
    simp only [decide_eq_true_eq] at hk
    exact ⟨(k, v), List.mem_map.mpr ⟨p, hp, by rw [if_pos hk]⟩, by simp⟩
  · simp only [hc, if_false, Bool.false_eq_true]
    simp [List.any_append]

/-- Removing a different key keeps membership. -/
theorem dictContains_dictRemove_of (d : List (Hash × Node)) (k k' : Hash)
    (hne : k' ≠ k) (h : dictContains d k' = true) :
    dictContains (dictRemove d k) k' = true := by
  unfold dictContains at h ⊢
  unfold dictRemove
  simp only [List.any_eq_true] at h ⊢
  rcases h with ⟨p, hp, hk⟩
  simp only [decide_eq_true_eq] at hk
  exact ⟨p, List.mem_filter.mpr ⟨hp, by simp [hk, hne]⟩, by simp [hk]⟩

/-- Members of a dictionary after `dictSet`. -/
theorem mem_dictSet (d : List (Hash × Node)) (k : Hash) (v : Node) (p : Hash × Node)
    (hp : p ∈ dictSet d k v) : p = (k, v) ∨ (p ∈ d ∧ p.1 ≠ k) := by
  unfold dictSet at hp
  by_cases hc : dictContains d k = true
  · simp only [hc, if_true] at hp
    rcases List.mem_map.mp hp with ⟨q, hq, he⟩
    by_cases hqk : q.1 = k
    · left; rw [← he]; simp [if_pos hqk]
    · right
      rw [← he]
      simp only [if_neg hqk]
      exact ⟨hq, hqk⟩
  · simp only [hc, if_false, Bool.false_eq_true] at hp
    rcases List.mem_append.mp hp with h | h
    · right
      refine ⟨h, fun hk => ?_⟩
      exact hc (by
        unfold dictContains
        simp only [List.any_eq_true]
        exact ⟨p, h, by simp [hk]⟩)
    · left; simpa using h

/-- Members of a dictionary after `dictRemove`. -/
theorem mem_dictRemove (d : List (Hash × Node)) (k : Hash) (p : Hash × Node)
    (hp : p ∈ dictRemove d k) : p ∈ d ∧ p.1 ≠ k := by
  unfold dictRemove at hp
  have := List.mem_filter.mp hp
  exact ⟨this.1, by simpa using this.2⟩

/-- With duplicate-free keys, lookup of a member's key yields its value. -/
theorem dictGet_of_mem_nodup (d : List (Hash × Node)) (p : Hash × Node)
    (hnd : (d.map Prod.fst).Nodup) (hp : p ∈ d) : dictGet d p.1 = some p.2 := by
  induction d with
  | nil => cases hp
  | cons q d ih =>
    simp only [List.map_cons, List.nodup_cons] at hnd
    rcases List.mem_cons.mp hp with he | hm
    · unfold dictGet
      rw [he]
      rw [List.find?_cons_of_pos _ (by simp)]
      rfl
    · have hne : ¬ q.1 = p.1 := by
        intro he
        exact hnd.1 (by rw [he]; exact List.mem_map.mpr ⟨p, hm, rfl⟩)
      unfold dictGet
      rw [List.find?_cons_of_neg _ (by simp [hne])]
      exact ih hnd.2 hm

-- ===== engine lemmas =====

/-- The node returned by `replaceBitterEnd` is the argument carrying
the digest of itself with a cleared hash field. -/
theorem replaceBitterEnd_node (t : ChronoTree) (st : TestStorage) (nb : Node) :
    (t.replaceBitterEnd st nb).2.2.1 =
      { nb with hash := computeHash { nb with hash := Hash.cleared } } := by
  unfold ChronoTree.replaceBitterEnd TestStorage.save
  cases hg : dictGet t.knownNodes t.bitterEnd <;> simp [hg]

/-- Full description of `replaceBitterEnd` when the old bitter end is
known. -/
theorem replaceBitterEnd_spec (t : ChronoTree) (st : TestStorage) (nb oldNode : Node)
    (hget : dictGet t.knownNodes t.bitterEnd = some oldNode) :
    t.replaceBitterEnd st nb =
      ({ bitterEnd := computeHash { nb with hash := Hash.cleared },
         knownNodes := if oldNode.type = NodeType.Aggregate then
             dictRemove t.knownNodes t.bitterEnd else t.knownNodes,
         looseEnds := if nb.type = NodeType.Content then
             setAdd (setRemove t.looseEnds t.bitterEnd)
               (computeHash { nb with hash := Hash.cleared })
           else t.looseEnds },
       { knownNodes := st.knownNodes ++
           [{ nb with hash := computeHash { nb with hash := Hash.cleared } }] },
       { nb with hash := computeHash { nb with hash := Hash.cleared } }, none) := by
  unfold ChronoTree.replaceBitterEnd TestStorage.save TestStorage.delete
  by_cases h1 : oldNode.type = NodeType.Aggregate <;>
    by_cases h2 : nb.type = NodeType.Content <;>
      simp [hget, h1, h2]

/-- The merge work loop never changes the bitter end. -/
theorem mergeLoop_bitterEnd (st : TestStorage) :
    ∀ (fuel : Nat) (t : ChronoTree) (todo : List Hash),
      (mergeLoop st fuel t todo).1.bitterEnd = t.bitterEnd := by
  intro fuel
  induction fuel with
  | zero => intro t todo; cases todo <;> simp [mergeLoop]
  | succ n ih =>
    intro t todo
    cases todo with
    | nil => simp [mergeLoop]
    | cons h rest =>
      rw [mergeLoop]
      by_cases hc : dictContains t.knownNodes h = true
      · simp only [hc, if_true]
        exact ih _ _
      · simp only [hc, Bool.false_eq_true, if_false]
        cases hf : TestStorage.find st h with
        | none => simp
        | some node =>
          simp only
          rw [ih]

/-- The merge work loop never removes a known node. -/
theorem mergeLoop_contains_mono (st : TestStorage) (k : Hash) :
    ∀ (fuel : Nat) (t : ChronoTree) (todo : List Hash),
      dictContains t.knownNodes k = true →
      dictContains (mergeLoop st fuel t todo).1.knownNodes k = true := by
  intro fuel
  induction fuel with
  | zero => intro t todo hk; cases todo <;> simpa [mergeLoop]
  | succ n ih =>
    intro t todo hk
    cases todo with
    | nil => simpa [mergeLoop]
    | cons h rest =>
      rw [mergeLoop]
      by_cases hc : dictContains t.knownNodes h = true
      · simp only [hc, if_true]
        exact ih _ _ hk
      · simp only [hc, Bool.false_eq_true, if_false]
        cases hf : TestStorage.find st h with
        | none => simpa
        | some node =>
          simp only
          apply ih
          exact dictContains_dictSet_of _ _ _ _ hk

/-- A successfully drained work loop has recorded its first pending
hash among the known nodes. -/
theorem mergeLoop_head_contains (st : TestStorage) (h : Hash) :
    ∀ (fuel : Nat) (t : ChronoTree) (rest : List Hash) (t' : ChronoTree),
      ¬ dictContains t.knownNodes h = true →
      mergeLoop st fuel t (h :: rest) = (t', none) →
      dictContains t'.knownNodes h = true := by
  intro fuel
  cases fuel with
  | zero =>
    intro t rest t' hnc he
    simp [mergeLoop] at he
  | succ n =>
    intro t rest t' hnc he
    rw [mergeLoop] at he
    simp only [hnc, Bool.false_eq_true, if_false] at he
    cases hf : TestStorage.find st h with
    | none => rw [hf] at he; simp at he
    | some node =>
      rw [hf] at he
      simp only at he
      have hcont := mergeLoop_contains_mono st h n
        { t with knownNodes := dictSet t.knownNodes h node,
                 looseEnds := node.predecessors.foldl setRemove
                   (if node.parent ≠ HASH_NOT_SET then
                      setRemove (setAdd t.looseEnds h) node.parent
                    else setAdd t.looseEnds h) }
        ((if node.parent ≠ HASH_NOT_SET then rest ++ [node.parent] else rest)
          ++ node.predecessors)
        (dictContains_dictSet_self _ _ _)
      rw [he] at hcont
      exact hcont

/-- Lemma: `replaceBitterEnd` reports the `getNode` failure when the old
bitter end is unknown. -/
theorem replaceBitterEnd_err (t : ChronoTree) (st : TestStorage) (nb : Node)
    (hget : dictGet t.knownNodes t.bitterEnd = none) :
    (t.replaceBitterEnd st nb).2.2.2 = some (CtError.unknownNode t.bitterEnd) := by
  unfold ChronoTree.replaceBitterEnd TestStorage.save
  simp [hget]

/-- After a successful merge, the merged hash is among the known
nodes, provided the replica's bitter end was known beforehand. -/
theorem merge_contains_after (fuel : Nat) (t t' : ChronoTree) (st st' : TestStorage) (h : Hash)
    (hbe : dictContains t.knownNodes t.bitterEnd = true)
    (hm : ChronoTree.merge fuel t st h = (t', st', none)) :
    dictContains t'.knownNodes h = true := by
  unfold ChronoTree.merge ChronoTree.mergeImpl at hm
  by_cases hc : dictContains t.knownNodes h = true
  · simp only [hc, if_true] at hm
    simp only [Prod.mk.injEq] at hm
    obtain ⟨ht, -, -⟩ := hm
    rw [← ht]
    exact hc
  · simp only [hc, Bool.false_eq_true, if_false] at hm
    cases hl : mergeLoop st fuel t [h] with
    | mk t1 e =>
      rw [hl] at hm
      cases e with
      | some err => simp at hm
      | none =>
        simp only [Bool.false_eq_true, if_false] at hm
        have hkt1 : dictContains t1.knownNodes h = true :=
          mergeLoop_head_contains st h fuel t [] t1 hc hl
        have hbe1 : t1.bitterEnd = t.bitterEnd := by
          have := mergeLoop_bitterEnd st fuel t [h]
          rw [hl] at this
          exact this
        have hne : h ≠ t1.bitterEnd := by
          rw [hbe1]
          intro he
          rw [he] at hc
          exact hc hbe
        by_cases hlen : t1.looseEnds.length = 1
        · simp only [hlen, if_true] at hm
          cases hfind : TestStorage.find st (t1.looseEnds.headD HASH_NOT_SET) with
          | none => rw [hfind] at hm; simp at hm
          | some nd =>
            rw [hfind] at hm
            simp only at hm
            cases hg : dictGet t1.knownNodes t1.bitterEnd with
            | none =>
              rw [replaceBitterEnd_err t1 st nd hg] at hm
              simp at hm
            | some oldNode =>
              rw [replaceBitterEnd_spec t1 st nd oldNode hg] at hm
              simp only [Prod.mk.injEq] at hm
              obtain ⟨ht', -, -⟩ := hm
              rw [← ht']
              apply dictContains_dictSet_of
              by_cases hagg : oldNode.type = NodeType.Aggregate
              · simp only [hagg, if_true]
                exact dictContains_dictRemove_of _ _ _ hne hkt1
              · simp only [hagg, if_false]
                exact hkt1
        · simp only [hlen, if_false] at hm
          cases hg : dictGet t1.knownNodes t1.bitterEnd with
          | none =>
            rw [replaceBitterEnd_err t1 st _ hg] at hm
            simp at hm
          | some oldNode =>
            rw [replaceBitterEnd_spec t1 st _ oldNode hg] at hm
            simp only [Prod.mk.injEq] at hm
            obtain ⟨ht', -, -⟩ := hm
            rw [← ht']
            apply dictContains_dictSet_of
            by_cases hagg : oldNode.type = NodeType.Aggregate
            · simp only [hagg, if_true]
              exact dictContains_dictRemove_of _ _ _ hne hkt1
            · simp only [hagg, if_false]
              exact hkt1

/-- Claim C2: merge is idempotent.  A second `merge` of the same hash
after a successful first one is a complete no-op: it leaves the tree,
the storage and the error outcome exactly as the first merge left
them, because the first merge recorded the hash among the known nodes
and the second takes the fast exit. -/
theorem merge_idempotent (fuel fuel2 : Nat) (t t1 : ChronoTree) (st st1 : TestStorage)
    (h : Hash)
    (hbe : dictContains t.knownNodes t.bitterEnd = true)
    (h1 : ChronoTree.merge fuel t st h = (t1, st1, none)) :
    ChronoTree.merge fuel2 t1 st1 h = (t1, st1, none) := by
  have hk := merge_contains_after fuel t t1 st st1 h hbe h1
  unfold ChronoTree.merge ChronoTree.mergeImpl
  simp [hk]

/-- Claim C10: adding a node whose hash is already a key of the known
nodes returns with tree, storage and node untouched and no error. -/
theorem add_known_hash_noop (t : ChronoTree) (st : TestStorage) (n : Node)
    (hk : dictContains t.knownNodes n.hash = true) :
    t.add st n = (t, st, n, none) := by
  unfold ChronoTree.add
  simp [hk]

/-- Claim C9 counterexample: `TestStorage.save` does not clear the
node's hash field to the `HASH_NOT_SET` sentinel before digesting; on
the root node the digest it returns differs from the digest of the
node cleared to the sentinel (it clears to the empty string instead). -/
theorem save_clear_sentinel_cex :
    (TestStorage.save scStorage0 scRoot).1 ≠
      computeHash { scRoot with hash := HASH_NOT_SET } := by decide

/-- Claim C9 amended: `save` digests the node with its hash field
overwritten by the empty-string constant, so the returned hash is a
pure function of the remaining fields: nodes agreeing on everything
but the hash field get equal digests, from any storage states. -/
theorem save_digest_of_cleared_node (st st2 : TestStorage) (n m : Node)
    (ht : n.type = m.type) (hp : n.parent = m.parent)
    (hq : n.predecessors = m.predecessors) (hc : n.content = m.content) :
    (st.save n).1 = computeHash { n with hash := Hash.cleared } ∧
    (st.save n).1 = (st2.save m).1 := by
  refine ⟨rfl, ?_⟩
  unfold TestStorage.save
  simp [computeHash, ht, hp, hq, hc]

/-- Witness for the C9 amended theorem at the concrete root node. -/
theorem save_digest_of_cleared_node_witness :
    (TestStorage.save scStorage0 scRoot).1 =
      computeHash { scRoot with hash := Hash.cleared } ∧
    (TestStorage.save scStorage0 scRoot).1 =
      (TestStorage.save scStRoot { scRoot with hash := Hash.cleared }).1 :=
  save_digest_of_cleared_node scStorage0 scStRoot scRoot
    { scRoot with hash := Hash.cleared } rfl rfl rfl rfl

/-- Claim C8 counterexample: a merge that hits a dangling ancestor
hash propagates `storageNotFound`, yet the replica's known nodes and
loose ends are not the same as before the merge call: the nodes
fetched before the failure remain recorded. -/
theorem merge_error_mutates_state_cex :
    scMergeBad.2.2 = some (CtError.storageNotFound scDangling) ∧
    scMergeBad.1.knownNodes ≠ scTreeC0.knownNodes ∧
    scMergeBad.1.looseEnds ≠ scTreeC0.looseEnds := by decide

/-- Claim C8 amended: a `find` failure inside the traversal propagates
out of `merge` untouched, the storage is not modified, and the replica
is left in exactly the (partially mutated) state the work loop reached
at the moment of the failure; no rollback is performed. -/
theorem merge_find_error_propagates (fuel : Nat) (t tMid : ChronoTree) (st : TestStorage)
    (h : Hash) (e : CtError)
    (hnk : dictContains t.knownNodes h = false)
    (hloop : mergeLoop st fuel t [h] = (tMid, some e)) :
    ChronoTree.merge fuel t st h = (tMid, st, some e) := by
  unfold ChronoTree.merge ChronoTree.mergeImpl
  simp [hnk, hloop]

/-- Witness for the C8 amended theorem on the dangling-parent
scenario. -/
theorem merge_find_error_propagates_witness :
    ChronoTree.merge 20 scTreeC0 scBadSaved.2 scBadSaved.1 =
      (scMergeBad.1, scBadSaved.2, some (CtError.storageNotFound scDangling)) :=
  merge_find_error_propagates 20 scTreeC0 scMergeBad.1 scBadSaved.2 scBadSaved.1
    (CtError.storageNotFound scDangling) (by decide) (by decide)

/-- Claim C3 counterexample: after `add` of node p on top of a
two-predecessor Aggregate bitter end, the node stored at the bitter
end is Content, yet the loose ends are p's hash together with both old
loose ends rather than the singleton of the bitter end. -/
theorem add_content_bitter_end_not_singleton_cex :
    scAddP.2.2.2 = none ∧
    (dictGet scAddP.1.knownNodes scAddP.1.bitterEnd).map Node.type =
      some NodeType.Content ∧
    sortHashes scAddP.1.looseEnds ≠ [scAddP.1.bitterEnd] := by decide

/-- Claim C4 counterexample: after replica B merges replica A's
Aggregate bitter end, that foreign Aggregate sits in B's known nodes
while B's bitter end is a different hash. -/
theorem merge_foreign_aggregate_cex :
    scMergeB.2.2 = none ∧
    (dictGet scMergeB.1.knownNodes scMergeA.1.bitterEnd).map Node.type =
      some NodeType.Aggregate ∧
    scMergeA.1.bitterEnd ≠ scMergeB.1.bitterEnd := by decide

/-- Claim C5 counterexample: adding p (a reply to loose end a) while
the bitter end is the Aggregate over a and b adopts the Aggregate's
whole predecessor list, so p's parent stays among p's predecessors,
contradicting predecessors = sorted(loose ends minus the parent). -/
theorem add_predecessors_claim_cex :
    scAddP.2.2.2 = none ∧
    scNodeP.parent ∈ scAddP.2.2.1.predecessors ∧
    scAddP.2.2.1.predecessors ≠
      sortHashes (setRemove scMergeA.1.looseEnds scNodeP.parent) := by decide

/-- Claim C6 counterexample: on the same add, the resulting loose-end
set differs from (loose ends minus adopted predecessors minus parent)
plus the new hash: the adopted predecessors are never removed. -/
theorem add_loose_ends_claim_cex :
    scAddP.2.2.2 = none ∧
    sortHashes scAddP.1.looseEnds ≠
      sortHashes (setAdd (List.foldl setRemove
        (setRemove scMergeA.1.looseEnds scNodeP.parent)
        scAddP.2.2.1.predecessors) scAddP.2.2.1.hash) := by decide

/-- Claim C5 amended: the predecessors `add` adopts for a fresh node
are: the bitter-end node's whole predecessor list when the bitter end
is an Aggregate (the parent is not removed), and otherwise the input
predecessors extended with the bitter-end hash unless that hash is the
node's parent. -/
theorem add_adopted_predecessors (t : ChronoTree) (st : TestStorage) (n be : Node)
    (hk : dictContains t.knownNodes n.hash = false)
    (hbe : dictGet t.knownNodes t.bitterEnd = some be) :
    ((t.add st n).2.2.1).predecessors =
      if be.type = NodeType.Aggregate then be.predecessors
      else if be.hash = n.parent then n.predecessors
      else n.predecessors ++ [be.hash] := by
  unfold ChronoTree.add
  simp only [hk, Bool.false_eq_true, if_false, hbe]
  cases hbt : be.type with
  | Aggregate =>
    rw [replaceBitterEnd_spec t st _ be hbe]
    simp [hbt]
  | Content =>
    by_cases hpar : be.hash = n.parent
    · rw [replaceBitterEnd_spec t st _ be hbe]
      simp [hbt, hpar]
    · rw [replaceBitterEnd_spec t st _ be hbe]
      simp [hbt, hpar]

/-- Claim C6 amended: for a Content node, `add` updates the loose ends
to (loose ends minus the old bitter end) plus the new node's hash; the
adopted predecessors and the parent are not removed. -/
theorem add_loose_ends_update (t : ChronoTree) (st : TestStorage) (n be : Node)
    (hk : dictContains t.knownNodes n.hash = false)
    (hbe : dictGet t.knownNodes t.bitterEnd = some be)
    (hcn : n.type = NodeType.Content) :
    ((t.add st n).1).looseEnds =
      setAdd (setRemove t.looseEnds t.bitterEnd) ((t.add st n).2.2.1).hash := by
  unfold ChronoTree.add
  simp only [hk, Bool.false_eq_true, if_false, hbe]
  cases hbt : be.type with
  | Aggregate =>
    rw [replaceBitterEnd_spec t st _ be hbe]
    simp [hbt, hcn]
  | Content =>
    by_cases hpar : be.hash = n.parent
    · rw [replaceBitterEnd_spec t st _ be hbe]
      simp [hbt, hpar, hcn]
    · rw [replaceBitterEnd_spec t st _ be hbe]
      simp [hbt, hpar, hcn]

/-- Claim C4 amended: `add` preserves aggregate transience.  If every
Aggregate among the known nodes is the bitter end (and keys are
duplicate-free), the same holds after any successful `add`; the
violation arises only through `merge` of a foreign Aggregate hash. -/
theorem add_preserves_aggregate_transience (t : ChronoTree) (st : TestStorage) (n : Node)
    (hdup : (t.knownNodes.map Prod.fst).Nodup)
    (hinv : ∀ p ∈ t.knownNodes, p.2.type = NodeType.Aggregate → p.1 = t.bitterEnd)
    (hok : (t.add st n).2.2.2 = none) :
    ∀ p ∈ ((t.add st n).1).knownNodes, p.2.type = NodeType.Aggregate →
      p.1 = ((t.add st n).1).bitterEnd := by
  unfold ChronoTree.add at hok ⊢
  by_cases hk : dictContains t.knownNodes n.hash = true
  · simpa [hk] using hinv
  · simp only [Bool.not_eq_true] at hk
    simp only [hk, Bool.false_eq_true, if_false] at hok ⊢
    cases hg : dictGet t.knownNodes t.bitterEnd with
    | none => rw [hg] at hok; simp at hok
    | some be =>
      rw [hg] at hok
      simp only at hok ⊢
      rw [replaceBitterEnd_spec t st _ be hg] at hok ⊢
      simp only at hok ⊢
      intro p hp hpt
      rcases mem_dictSet _ _ _ _ hp with he | ⟨hmem, hne⟩
      · rw [he]
      · exfalso
        by_cases hagg : be.type = NodeType.Aggregate
        · rw [if_pos hagg] at hmem
          rcases mem_dictRemove _ _ _ hmem with ⟨hmem', hne'⟩
          exact hne' (hinv p hmem' hpt)
        · rw [if_neg hagg] at hmem
          have hpbe := hinv p hmem hpt
          have := dictGet_of_mem_nodup t.knownNodes p hdup hmem
          rw [hpbe, hg] at this
          have hpeq : p.2 = be := by simpa using this.symm
          rw [hpeq] at hpt
          exact hagg hpt

/-- Claim C3 amended: a successful `merge` (on a well-formed storage)
re-establishes the invariant that a Content node at the bitter end
forces the loose-end set to be exactly the singleton of the bitter
end, provided the invariant held before the call; `add` on top of an
Aggregate bitter end with predecessors does not have this property. -/
theorem merge_content_bitter_end_singleton (fuel : Nat) (t t' : ChronoTree)
    (st st' : TestStorage) (h : Hash) (nd' : Node)
    (hwf : st.WF)
    (hinv : ∀ nd, dictGet t.knownNodes t.bitterEnd = some nd →
        nd.type = NodeType.Content → t.looseEnds = [t.bitterEnd])
    (hm : ChronoTree.merge fuel t st h = (t', st', none))
    (hnd : dictGet t'.knownNodes t'.bitterEnd = some nd')
    (hc : nd'.type = NodeType.Content) :
    t'.looseEnds = [t'.bitterEnd] := by
  unfold ChronoTree.merge ChronoTree.mergeImpl at hm
  by_cases hfast : dictContains t.knownNodes h = true
  · simp only [hfast, if_true, Prod.mk.injEq] at hm
    obtain ⟨ht, -, -⟩ := hm
    subst ht
    exact hinv nd' hnd hc
  · simp only [hfast, Bool.false_eq_true, if_false] at hm
    cases hl : mergeLoop st fuel t [h] with
    | mk t1 e =>
      rw [hl] at hm
      cases e with
      | some err => simp at hm
      | none =>
        simp only [Bool.false_eq_true, if_false] at hm
        by_cases hlen : t1.looseEnds.length = 1
        · simp only [hlen, if_true] at hm
          obtain ⟨x, hx⟩ := List.length_eq_one.mp hlen
          cases hfind : TestStorage.find st (t1.looseEnds.headD HASH_NOT_SET) with
          | none => rw [hfind] at hm; simp at hm
          | some nd =>
            rw [hfind] at hm
            simp only at hm
            cases hg : dictGet t1.knownNodes t1.bitterEnd with
            | none =>
              rw [replaceBitterEnd_err t1 st nd hg] at hm
              simp at hm
            | some oldNode =>
              rw [replaceBitterEnd_spec t1 st nd oldNode hg] at hm
              simp only [Prod.mk.injEq] at hm
              obtain ⟨ht', -, -⟩ := hm
              have hndmem : nd ∈ st.knownNodes := List.mem_of_find?_eq_some hfind
              have hndhash : nd.hash = t1.looseEnds.headD HASH_NOT_SET := by
                have := List.find?_some hfind
                simpa using this
              have hch : computeHash { nd with hash := Hash.cleared } = x := by
                rw [← hwf nd hndmem, hndhash, hx]
                rfl
              subst ht'
              simp only at hnd ⊢
              rw [dictGet_dictSet_self] at hnd
              have hnd1 : nd' = { nd with hash := computeHash { nd with hash := Hash.cleared } } :=
                (Option.some.inj hnd).symm
              by_cases hnt : nd.type = NodeType.Content
              · rw [if_pos hnt, hx, hch]
                by_cases hxb : x = t1.bitterEnd <;>
                  simp [setRemove, setAdd, hxb, List.filter]
              · exfalso
                rw [hnd1] at hc
                simp only at hc
                exact hnt hc
        · simp only [hlen, if_false] at hm
          cases hg : dictGet t1.knownNodes t1.bitterEnd with
          | none =>
            rw [replaceBitterEnd_err t1 st _ hg] at hm
            simp at hm
          | some oldNode =>
            rw [replaceBitterEnd_spec t1 st _ oldNode hg] at hm
            simp only [Prod.mk.injEq] at hm
            obtain ⟨ht', -, -⟩ := hm
            exfalso
            subst ht'
            simp only at hnd
            rw [dictGet_dictSet_self] at hnd
            have hnd1 := (Option.some.inj hnd).symm
            rw [hnd1] at hc
            cases hc

/-- Claim C7: bitter-end synthesis.  For a merge of an unknown hash
that returns successfully on a well-formed storage, if the loose-end
set recomputed by the traversal has exactly one element, the new
bitter end is that very hash and the only node written to storage is a
copy of its existing node (no new Aggregate); otherwise the node at
the new bitter end is an Aggregate with no parent whose predecessors
are the loose ends in sorted order. -/
theorem merge_bitter_end_synthesis (fuel : Nat) (t t' tMid : ChronoTree)
    (st st' : TestStorage) (h : Hash)
    (hwf : st.WF)
    (hnk : dictContains t.knownNodes h = false)
    (hloop : mergeLoop st fuel t [h] = (tMid, none))
    (hm : ChronoTree.merge fuel t st h = (t', st', none)) :
    (∀ x, tMid.looseEnds = [x] →
      t'.bitterEnd = x ∧
      ∃ nd, st.find x = some nd ∧
        st'.knownNodes = st.knownNodes ++ [{ nd with hash := x }]) ∧
    (tMid.looseEnds.length ≠ 1 →
      ∃ agg, dictGet t'.knownNodes t'.bitterEnd = some agg ∧
        agg.type = NodeType.Aggregate ∧ agg.parent = HASH_NOT_SET ∧
        agg.predecessors = sortHashes tMid.looseEnds) := by
  unfold ChronoTree.merge ChronoTree.mergeImpl at hm
  simp only [hnk, Bool.false_eq_true, if_false, hloop] at hm
  constructor
  · intro x hx
    rw [hx] at hm
    simp only [List.length_cons, List.length_nil, if_true, List.headD_cons] at hm
    cases hfind : TestStorage.find st x with
    | none => rw [hfind] at hm; simp at hm
    | some nd =>
      rw [hfind] at hm
      simp only at hm
      cases hg : dictGet tMid.knownNodes tMid.bitterEnd with
      | none =>
        rw [replaceBitterEnd_err tMid st nd hg] at hm
        simp at hm
      | some oldNode =>
        rw [replaceBitterEnd_spec tMid st nd oldNode hg] at hm
        simp only [Prod.mk.injEq] at hm
        obtain ⟨ht', hst', -⟩ := hm
        have hndmem : nd ∈ st.knownNodes := List.mem_of_find?_eq_some hfind
        have hndhash : nd.hash = x := by
          have := List.find?_some hfind
          simpa using this
        have hch : computeHash { nd with hash := Hash.cleared } = x := by
          rw [← hwf nd hndmem, hndhash]
        constructor
        · rw [← ht']
          simpa using hch
        · refine ⟨nd, rfl, ?_⟩
          rw [← hst']
          simp [hch]
  · intro hlen
    simp only [hlen, if_false] at hm
    cases hg : dictGet tMid.knownNodes tMid.bitterEnd with
    | none =>
      rw [replaceBitterEnd_err tMid st _ hg] at hm
      simp at hm
    | some oldNode =>
      rw [replaceBitterEnd_spec tMid st _ oldNode hg] at hm
      simp only [Prod.mk.injEq] at hm
      obtain ⟨ht', -, -⟩ := hm
      subst ht'
      simp only
      rw [dictGet_dictSet_self]
      exact ⟨_, rfl, rfl, rfl, rfl⟩

/-- Witness for C7 on the single-loose-end scenario: a fresh replica
at the root merges a's hash, whose traversal leaves the single loose
end a; the resulting bitter end is a's hash and storage only gains a
copy of a's node. -/
theorem merge_bitter_end_synthesis_witness :
    scMergeD.1.bitterEnd = scHashA ∧
    ∃ nd, TestStorage.find scAddA.2.1 scHashA = some nd ∧
      scMergeD.2.1.knownNodes = scAddA.2.1.knownNodes ++ [{ nd with hash := scHashA }] :=
  (merge_bitter_end_synthesis 20 scTreeD scMergeD.1
      (mergeLoop scAddA.2.1 20 scTreeD [scHashA]).1 scAddA.2.1 scMergeD.2.1 scHashA
      (by unfold TestStorage.WF; decide) (by decide) (by decide) (by decide)).1
    scHashA (by decide)

-- ===== staged evaluation lemmas for the commutativity scenario =====

/-- Attaching to the saved root yields `T0` and leaves storage alone. -/
theorem create_T0 :
    ChronoTree.create 20 { knownNodes := [rootN] } (some scRootHash) =
      (T0, { knownNodes := [rootN] }, none) := by
  decide

/-- The storage after saving the root is the one-node list. -/
theorem scStRoot_eq : scStRoot = { knownNodes := [rootN] } := by decide

/-- Adding a fresh child of the root to a `T0` replica, over any
storage contents: the replica moves to the child as sole loose end and
bitter end, and the child is appended to storage. -/
theorem add_fresh_over_root (c : Nat) (ns : List Node) :
    ChronoTree.add T0 { knownNodes := ns } { parent := scRootHash, content := c } =
      ({ bitterEnd := hashC c,
         knownNodes := [(scRootHash, rootN), (hashC c, nodeC c)],
         looseEnds := [hashC c] },
       { knownNodes := ns ++ [nodeC c] }, nodeC c, none) := by
  simp [ChronoTree.add, ChronoTree.replaceBitterEnd, TestStorage.save, TestStorage.delete,
    dictContains, dictGet, dictSet, setAdd, setRemove, T0, rootN, nodeC, hashC,
    scRootHash, scRoot, scRootSaved, scStorage0, computeHash, List.find?]

/-- A merge of an already-known hash is a fast exit. -/
theorem merge_fast_exit (fuel : Nat) (t : ChronoTree) (st : TestStorage) (h : Hash)
    (hk : dictContains t.knownNodes h = true) :
    ChronoTree.merge fuel t st h = (t, st, none) := by
  unfold ChronoTree.merge ChronoTree.mergeImpl
  simp [hk]

/-- Merging the hash of a sibling child of the root into a replica
sitting at its own child: the traversal adds the sibling, the loose
ends become the two children, and a fresh Aggregate over their sorted
pair becomes the bitter end. -/
theorem merge_sibling (ca cb : Nat) (ns : List Node)
    (hfind : TestStorage.find { knownNodes := ns } (hashC cb) = some (nodeC cb))
    (hne : ¬ ca = cb) :
    ChronoTree.merge 20
      { bitterEnd := hashC ca,
        knownNodes := [(scRootHash, rootN), (hashC ca, nodeC ca)],
        looseEnds := [hashC ca] }
      { knownNodes := ns } (hashC cb) =
    ({ bitterEnd := aggHash (sortHashes [hashC ca, hashC cb]),
       knownNodes := [(scRootHash, rootN), (hashC ca, nodeC ca), (hashC cb, nodeC cb),
         (aggHash (sortHashes [hashC ca, hashC cb]),
          aggNode (sortHashes [hashC ca, hashC cb]))],
       looseEnds := [hashC ca, hashC cb] },
     { knownNodes := ns ++ [aggNode (sortHashes [hashC ca, hashC cb])] }, none) := by
  have hne2 : ¬ cb = ca := fun h => hne h.symm
  have hfind2 := hfind
  simp only [hashC, nodeC, rootN, scRootHash, scRoot, scRootSaved, scStorage0,
    TestStorage.save, computeHash] at hfind2
  simp [hne, hne2, hfind2, ChronoTree.merge, ChronoTree.mergeImpl, mergeLoop,
    ChronoTree.replaceBitterEnd,
    TestStorage.save, TestStorage.delete,
    dictContains, dictGet, dictSet, dictRemove, setAdd, setRemove,
    rootN, nodeC, hashC, aggHash, aggNode,
    scRootHash, scRoot, scRootSaved, scStorage0, computeHash, HASH_NOT_SET, List.find?]

/-- Ordering facts for the hash order on sibling digests. -/
theorem natCmp_self (a : Nat) : natCmp a a = Ordering.eq := by simp [natCmp]

/-- Lemma: `hcmp` on two sibling-child digests is the payload comparison. -/
theorem hcmp_hashC (a b : Nat) : hcmp (hashC a) (hashC b) = natCmp a b := by
  simp [hashC, hcmp, hcmpList, ncmp, Ordering.then, natCmp_self,
    scRootHash, scRootSaved, scRoot, scStorage0, TestStorage.save, computeHash]

/-- Sorting a pair of sibling digests with increasing payloads. -/
theorem sortHashes_pair_lt (a b : Nat) (h : a < b) :
    sortHashes [hashC a, hashC b] = [hashC a, hashC b] ∧
    sortHashes [hashC b, hashC a] = [hashC a, hashC b] := by
  have h2 : ¬ b < a := Nat.lt_asymm h
  constructor <;>
    simp [sortHashes, insertSorted, hleB, hcmp_hashC, natCmp, h, h2]

/-- Lookup in a four-entry dictionary is stable under swapping the two
middle entries when their keys differ. -/
theorem dictGet_four_swap (k1 k2 k3 k4 : Hash) (v1 v2 v3 v4 : Node)
    (hne : ¬ k2 = k3) (h : Hash) :
    dictGet [(k1, v1), (k2, v2), (k3, v3), (k4, v4)] h =
      dictGet [(k1, v1), (k3, v3), (k2, v2), (k4, v4)] h := by
  unfold dictGet
  by_cases e1 : k1 = h
  · simp [List.find?, e1]
  · by_cases e2 : k2 = h <;> by_cases e3 : k3 = h
    · exact absurd (e2.trans e3.symm) hne
    all_goals simp [List.find?, e1, e2, e3]

/-- Claim C1: merge is commutative on the split-merge scenario.  For
any two payloads, after both replicas add their own child of the
common root and each merges the bitter end the other had before either
merge ran, both merges succeed and the replicas agree on the bitter
end, on the sorted loose-end sequence, and on the known-nodes mapping
(pointwise equal lookups). -/
theorem merge_commutative_scenario (c1 c2 : Nat) :
    (commScenario c1 c2).eA = none ∧
    (commScenario c1 c2).eB = none ∧
    (commScenario c1 c2).tA.bitterEnd = (commScenario c1 c2).tB.bitterEnd ∧
    sortHashes (commScenario c1 c2).tA.looseEnds =
      sortHashes (commScenario c1 c2).tB.looseEnds ∧
    (∀ h, dictGet (commScenario c1 c2).tA.knownNodes h =
      dictGet (commScenario c1 c2).tB.knownNodes h) := by
  unfold commScenario
  rw [scStRoot_eq]
  simp only [create_T0, add_fresh_over_root,
    List.cons_append, List.nil_append]
  by_cases hc : c1 = c2
  · subst hc
    have hfe := merge_fast_exit 20
        { bitterEnd := hashC c1,
          knownNodes := [(scRootHash, rootN), (hashC c1, nodeC c1)],
          looseEnds := [hashC c1] }
        { knownNodes := [rootN, nodeC c1, nodeC c1] } (hashC c1)
        (by simp [dictContains])
    simp only [hfe]
    simp
  · have hc2 : ¬ c2 = c1 := fun h => hc h.symm
    have hfind1 : TestStorage.find { knownNodes := [rootN, nodeC c1, nodeC c2] }
        (hashC c2) = some (nodeC c2) := by
      simp [TestStorage.find, List.find?, rootN, nodeC, hashC, hc, hc2,
        scRootHash, scRootSaved, scRoot, scStorage0, TestStorage.save, computeHash]
    rw [merge_sibling c1 c2 [rootN, nodeC c1, nodeC c2] hfind1 hc]
    simp only [List.cons_append, List.nil_append]
    have hfind2 : TestStorage.find { knownNodes := [rootN, nodeC c1, nodeC c2,
        aggNode (sortHashes [hashC c1, hashC c2])] } (hashC c1) = some (nodeC c1) := by
      simp [TestStorage.find, List.find?, rootN, nodeC, hashC,
        scRootHash, scRootSaved, scRoot, scStorage0, TestStorage.save, computeHash]
    rw [merge_sibling c2 c1 [rootN, nodeC c1, nodeC c2,
        aggNode (sortHashes [hashC c1, hashC c2])] hfind2 hc2]
    have hnab : ¬ hashC c1 = hashC c2 := by simp [hashC, hc]
    rcases Nat.lt_trichotomy c1 c2 with hlt | heq | hgt
    · rw [(sortHashes_pair_lt c1 c2 hlt).1, (sortHashes_pair_lt c1 c2 hlt).2]
      refine ⟨by trivial, by trivial, by trivial, ?_, ?_⟩
      · simp [sortHashes, insertSorted, hleB, hcmp_hashC, natCmp, hlt, Nat.lt_asymm hlt]
      · intro h
        exact dictGet_four_swap scRootHash (hashC c1) (hashC c2) _ rootN (nodeC c1)
          (nodeC c2) _ hnab h
    · exact absurd heq hc
    · rw [(sortHashes_pair_lt c2 c1 hgt).2, (sortHashes_pair_lt c2 c1 hgt).1]
      refine ⟨by trivial, by trivial, by trivial, ?_, ?_⟩
      · simp [sortHashes, insertSorted, hleB, hcmp_hashC, natCmp, hgt, Nat.lt_asymm hgt]
      · intro h
        exact dictGet_four_swap scRootHash (hashC c1) (hashC c2) _ rootN (nodeC c1)
          (nodeC c2) _ hnab h

/-- Witness for C2 on the single-loose-end merge: repeating the merge
of a's hash leaves tree and storage exactly as after the first call. -/
theorem merge_idempotent_witness :
    ChronoTree.merge 20 scMergeD.1 scMergeD.2.1 scHashA = (scMergeD.1, scMergeD.2.1, none) :=
  merge_idempotent 20 20 scTreeD scMergeD.1 scAddA.2.1 scMergeD.2.1 scHashA
    (by decide) (by decide)

/-- Witness for C10: re-adding the already-adopted node a is a no-op. -/
theorem add_known_hash_noop_witness :
    ChronoTree.add scAddA.1 scAddA.2.1 scAddA.2.2.1 =
      (scAddA.1, scAddA.2.1, scAddA.2.2.1, none) :=
  add_known_hash_noop scAddA.1 scAddA.2.1 scAddA.2.2.1 (by decide)

/-- Witness for the C3 amended theorem: after the single-loose-end
merge the bitter end is a Content node and the loose ends are exactly
its singleton. -/
theorem merge_content_singleton_witness :
    scMergeD.1.looseEnds = [scMergeD.1.bitterEnd] :=
  merge_content_bitter_end_singleton 20 scTreeD scMergeD.1 scAddA.2.1 scMergeD.2.1
    scHashA { scNodeA with hash := scHashA }
    (by unfold TestStorage.WF; decide)
    (fun _ _ _ => by decide) (by decide) (by decide) (by decide)

/-- Witness for the C4 amended theorem: after adding the
Aggregate-typed node q on top of the Aggregate bitter end, the one
Aggregate in the known nodes (q itself) carries the bitter-end hash. -/
theorem add_preserves_aggregate_transience_witness :
    scAddQ.2.2.1.hash = scAddQ.1.bitterEnd :=
  add_preserves_aggregate_transience scMergeA.1 scMergeA.2.1 scNodeQ
    (by decide) (by decide) (by decide)
    (scAddQ.2.2.1.hash, scAddQ.2.2.1) (by decide) (by decide)

/-- Witness for the C5 amended theorem at the Aggregate bitter end. -/
theorem add_adopted_predecessors_witness :
    scAddP.2.2.1.predecessors =
      if scAggA.type = NodeType.Aggregate then scAggA.predecessors
      else if scAggA.hash = scNodeP.parent then scNodeP.predecessors
      else scNodeP.predecessors ++ [scAggA.hash] :=
  add_adopted_predecessors scMergeA.1 scMergeA.2.1 scNodeP scAggA (by decide) (by decide)

/-- Witness for the C6 amended theorem at the Aggregate bitter end. -/
theorem add_loose_ends_update_witness :
    scAddP.1.looseEnds =
      setAdd (setRemove scMergeA.1.looseEnds scMergeA.1.bitterEnd) scAddP.2.2.1.hash :=
  add_loose_ends_update scMergeA.1 scMergeA.2.1 scNodeP scAggA
    (by decide) (by decide) (by decide)

/-- Witness for C1 at payloads 1 and 2. -/
theorem merge_commutative_scenario_witness :
    (commScenario 1 2).tA.bitterEnd = (commScenario 1 2).tB.bitterEnd :=
  (merge_commutative_scenario 1 2).2.2.1
